import Mathlib

/-!
Verification of the similarity-index core of the repository
(`app/services/vector_store.py`) and the generation fallback chain
(`app/services/ai_service.py`), as a shallow embedding in Lean 4.

Modelling conventions:
* Python floats are modelled as rationals (`ℚ`); squared Euclidean
  distance is exact arithmetic on those.
* The faiss `IndexFlatL2` object is modelled as its dimension together
  with the ordered list of stored vectors.  Its `search` returns, for a
  query, exactly `k` `(distance, index)` rows: the stored vectors sorted
  by squared L2 distance (ties broken by lower insertion index, as the
  spec describes for this exact-search structure), padded with index
  `-1` when `k` exceeds the number of stored vectors.  `reconstruct i`
  succeeds exactly when `i` is in range.
* The filesystem used by `save_index` / `load_index` is a map from path
  strings to file contents; a file is a serialized faiss index, a
  serialized metadata dict (`pickle` of `{chunks, dimension}`), or bytes
  that the corresponding reader rejects (`corrupt`).  A reader applied
  to a file of the wrong kind raises, which the Python code catches.
* Python chunk-metadata dicts are modelled by the `Chunk` structure;
  `chunk.get('doc_id') or chunk.get('document_id')` is `getDocId`,
  including Python's falsiness of the empty string.
-/

/-- A vector of rational components, modelling a row of float32s. -/
abbrev Vec := List ℚ

/-- Squared Euclidean (L2) distance over the common prefix of two
vectors; faiss only ever compares vectors of the index's dimension. -/
def sqDist (a b : Vec) : ℚ :=
  ((a.zip b).map (fun p => (p.1 - p.2) * (p.1 - p.2))).sum

/-- A chunk-metadata record (Python dict with optional doc-id keys). -/
structure Chunk where
  doc_id : Option String := none
  document_id : Option String := none
  text : String := ""
  deriving DecidableEq, Repr, Inhabited

/-- `chunk.get('doc_id') or chunk.get('document_id')`: the `doc_id`
value unless it is missing or falsy (empty string), else the
`document_id` value. -/
def getDocId (c : Chunk) : Option String :=
  match c.doc_id with
  | some s => if s = "" then c.document_id else some s
  | none => c.document_id

/-- The faiss `IndexFlatL2`: a fixed dimension plus the ordered list of
stored vectors. -/
structure FaissIndex where
  d : ℕ
  vecs : List Vec
  deriving DecidableEq, Repr

/-- `index.ntotal`. -/
def FaissIndex.ntotal (fi : FaissIndex) : ℕ := fi.vecs.length

/-- `index.add(vectors)`: appends the rows in order. -/
def FaissIndex.add (fi : FaissIndex) (vs : List Vec) : FaissIndex :=
  { fi with vecs := fi.vecs ++ vs }

/-- `index.reconstruct(i)`: returns stored vector `i`, failing (raising
in Python) when `i` is out of range. -/
def FaissIndex.reconstruct (fi : FaissIndex) (i : ℕ) : Option Vec :=
  fi.vecs[i]?

/-- Comparison key used by exact L2 search: by distance, ties by lower
insertion index. -/
def pairLe (p q : ℚ × ℕ) : Prop :=
  p.1 < q.1 ∨ (p.1 = q.1 ∧ p.2 ≤ q.2)

instance : DecidableRel pairLe := fun p q => by
  unfold pairLe; infer_instance

instance : IsTotal (ℚ × ℕ) pairLe := by
  constructor
  intro p q
  rcases lt_trichotomy p.1 q.1 with h | h | h
  · exact Or.inl (Or.inl h)
  · rcases Nat.le_total p.2 q.2 with h2 | h2
    · exact Or.inl (Or.inr ⟨h, h2⟩)
    · exact Or.inr (Or.inr ⟨h.symm, h2⟩)
  · exact Or.inr (Or.inl h)

instance : IsTrans (ℚ × ℕ) pairLe := by
  constructor
  intro p q r hpq hqr
  rcases hpq with h1 | ⟨h1, h1i⟩
  · rcases hqr with h2 | ⟨h2, _⟩
    · exact Or.inl (h1.trans h2)
    · exact Or.inl (h2 ▸ h1)
  · rcases hqr with h2 | ⟨h2, h2i⟩
    · exact Or.inl (h1 ▸ h2)
    · exact Or.inr ⟨h1.trans h2, h1i.trans h2i⟩

/-- All `(distance, index)` pairs of an index relative to a query, in
insertion order. -/
def FaissIndex.distPairs (fi : FaissIndex) (q : Vec) : List (ℚ × ℕ) :=
  (List.range fi.ntotal).map (fun i => (sqDist q (fi.vecs.getD i []), i))

/-- The distance pairs sorted by distance, ties by lower index. -/
def FaissIndex.sortedPairs (fi : FaissIndex) (q : Vec) : List (ℚ × ℕ) :=
  List.insertionSort pairLe (fi.distPairs q)

/-- `index.search(q, k)` row contents: exactly `k` `(distance, label)`
entries, the nearest stored vectors first, padded with label `-1` when
fewer than `k` vectors are stored. -/
def FaissIndex.searchPairs (fi : FaissIndex) (q : Vec) (k : ℕ) : List (ℚ × Int) :=
  let top := (fi.sortedPairs q).take k
  top.map (fun p => (p.1, (p.2 : Int))) ++
    List.replicate (k - top.length) ((0 : ℚ), (-1 : Int))

/-- The `VectorStore` state: the (possibly uninitialized) faiss index,
the parallel chunk-metadata list, and the remembered dimension. -/
structure VectorStore where
  index : Option FaissIndex
  chunks : List Chunk
  dimension : ℕ
  deriving DecidableEq, Repr

/-- The state of the freshly constructed singleton: no index, no chunks,
default dimension 384. -/
def freshStore : VectorStore :=
  { index := none, chunks := [], dimension := 384 }

/-- `initialize_index(dimension)`: records the dimension, replaces the
index with an empty `IndexFlatL2(dimension)`, and drops all chunks. -/
def VectorStore.init_index (s : VectorStore) (dimension : ℕ) : VectorStore :=
  { s with dimension := dimension,
           index := some { d := dimension, vecs := [] },
           chunks := [] }

/-- `add_documents(embeddings, chunks_metadata)`: lazily initializes the
index from the first embedding's length, appends all vectors to the
index and all metadata records to the chunk list. -/
def VectorStore.add_documents (s : VectorStore) (embeddings : List Vec)
    (chunks_metadata : List Chunk) : VectorStore :=
  let s1 := match s.index with
    | none => s.init_index (embeddings.headD []).length
    | some _ => s
  match s1.index with
  | some fi => { s1 with index := some (fi.add embeddings),
                         chunks := s1.chunks ++ chunks_metadata }
  | none => s1

/-- `remove_document(doc_id)`: returns unchanged if the index is unset,
the chunk list is empty, or nothing matches; otherwise rebuilds a fresh
index from the reconstructable surviving vectors (a vector whose
reconstruction fails is silently skipped) and keeps the surviving chunk
records. The loop over `enumerate(self.chunks)` building `keep_indices`
and `new_chunks` together is `keepFilter`. -/
def keepFilter (doc_id : String) (chunks : List Chunk) : List (ℕ × Chunk) :=
  chunks.enum.filter (fun ic => getDocId ic.2 ≠ some doc_id)

def VectorStore.remove_document (s : VectorStore) (doc_id : String) : VectorStore :=
  match s.index with
  | none => s
  | some fi =>
    if s.chunks.isEmpty then s
    else
      let keepPairs := keepFilter doc_id s.chunks
      if keepPairs.length = s.chunks.length then s
      else
        let vectors := keepPairs.filterMap (fun ic => fi.reconstruct ic.1)
        { s with index := some { d := s.dimension, vecs := vectors },
                 chunks := keepPairs.map Prod.snd }

/-- `search(query_vector, k)`: empty when the index is unset or empty;
otherwise queries faiss for `k` rows and keeps every hit whose label is
not `-1` and is in range of the chunk list, pairing a copy of that chunk
record with the hit's distance. -/
def VectorStore.search (s : VectorStore) (query_vector : Vec) (k : ℕ) :
    List (Chunk × ℚ) :=
  match s.index with
  | none => []
  | some fi =>
    if fi.ntotal = 0 then []
    else
      (fi.searchPairs query_vector k).filterMap (fun p =>
        if p.2 ≠ -1 ∧ p.2 < (s.chunks.length : Int) then
          some (s.chunks.getD p.2.toNat default, p.1)
        else none)

/-- `clear()`: drops the index and chunks, then re-initializes to the
remembered dimension. -/
def VectorStore.clear (s : VectorStore) : VectorStore :=
  ({ s with index := none, chunks := ([] : List Chunk) }).init_index s.dimension

/-- The record returned by `get_stats()`. -/
structure Stats where
  total_vectors : ℕ
  dimension : ℕ
  deriving DecidableEq, Repr

/-- `get_stats()`: `ntotal` of the index (0 when unset) and the
remembered dimension. -/
def VectorStore.get_stats (s : VectorStore) : Stats :=
  { total_vectors := match s.index with
      | some fi => fi.ntotal
      | none => 0,
    dimension := s.dimension }

/-- Contents of a file on disk, as seen by the two readers: a faiss
index artifact, a pickled metadata dict, or bytes rejected by whichever
reader is applied (`corrupt`). -/
inductive FileData where
  | idxFile (fi : FaissIndex)
  | metaFile (chunks : List Chunk) (dim : ℕ)
  | corrupt
  deriving DecidableEq, Repr

/-- The filesystem: which paths exist and what they hold. -/
def FS := String → Option FileData

/-- `save_index(filepath)`: when the index is set, writes the index
artifact at `filepath` and the metadata artifact at `filepath + ".meta"`
and returns `True`; when the index is unset, writes nothing and falls
off the end of the function (Python returns `None`, modelled `none`). -/
def VectorStore.save_index (s : VectorStore) (fs : FS) (filepath : String) :
    FS × Option Bool :=
  match s.index with
  | none => (fs, none)
  | some fi =>
    (fun p =>
      if p = filepath then some (FileData.idxFile fi)
      else if p = filepath ++ ".meta" then
        some (FileData.metaFile s.chunks s.dimension)
      else fs p, some true)

/-- `load_index(filepath)`: if the path is absent, does nothing and
falls off the end (`None`).  Otherwise `faiss.read_index` runs first: if
it raises, the exception is caught and `False` returned with the state
untouched; if it succeeds the index field is already replaced, and the
metadata artifact is then loaded only if present — a raising
`pickle.load` is caught and `False` returned with the new index kept but
the old chunks and dimension kept too. -/
def VectorStore.load_index (s : VectorStore) (fs : FS) (filepath : String) :
    VectorStore × Option Bool :=
  match fs filepath with
  | none => (s, none)
  | some (FileData.idxFile fi) =>
    let s1 := { s with index := some fi }
    match fs (filepath ++ ".meta") with
    | none => (s1, some true)
    | some (FileData.metaFile cks dim) =>
      ({ s1 with chunks := cks, dimension := dim }, some true)
    | some _ => (s1, some false)
  | some _ => (s, some false)

/-- One mutating operation of the claim C1 operation alphabet. -/
inductive Op where
  | addDocs (es : List Vec) (cs : List Chunk)
  | removeDoc (d : String)
  | clearOp
  | loadIdx (fs : FS) (path : String)

/-- Apply one operation to a store (the returned status of `load_index`
is discarded, as callers sequencing mutations do). -/
def VectorStore.apply (s : VectorStore) : Op → VectorStore
  | Op.addDocs es cs => s.add_documents es cs
  | Op.removeDoc d => s.remove_document d
  | Op.clearOp => s.clear
  | Op.loadIdx fs path => (s.load_index fs path).1

/-- The parallel-lists invariant: as many chunk records as stored
vectors. -/
def synced (s : VectorStore) : Prop :=
  s.chunks.length = s.get_stats.total_vectors

instance (s : VectorStore) : Decidable (synced s) := by
  unfold synced; infer_instance

/-- Well-formedness of an operation: `add_documents` gets a non-empty
embedding batch matching its metadata batch in length, and `load_index`
is pointed at a path whose index artifact, when readable, comes with a
readable metadata artifact listing as many chunks as the index has
vectors. -/
def wfOp : Op → Prop
  | Op.addDocs es cs => es ≠ [] ∧ es.length = cs.length
  | Op.removeDoc _ => True
  | Op.clearOp => True
  | Op.loadIdx fs path => ∀ fi, fs path = some (FileData.idxFile fi) →
      ∃ cks dim, fs (path ++ ".meta") = some (FileData.metaFile cks dim) ∧
        cks.length = fi.ntotal

/-- The store's positional vector-to-chunk pairing: the stored vector at
position `i` together with the chunk record at position `i` (empty when
the index is unset). -/
def storePairs (s : VectorStore) : List (Vec × Chunk) :=
  match s.index with
  | some fi => fi.vecs.zip s.chunks
  | none => []

/-- Modelled from the spec: the specification-level pairing semantics of
the data-model invariant ("the vector at position i is the embedding of
the chunk record at position i").  The sequence of (embedding, chunk
record) pairs evolves by appending the inserted pairs in order, removing
a document's pairs while preserving the surviving pairs and their order,
clearing, and being replaced by the loaded artifact pair on a consistent
restore (other restores leave it unchanged).  The amended C1 compares
the store's positional pairing against this reference. -/
def pairApply (ps : List (Vec × Chunk)) : Op → List (Vec × Chunk)
  | Op.addDocs es cs => ps ++ es.zip cs
  | Op.removeDoc d => ps.filter (fun p => getDocId p.2 ≠ some d)
  | Op.clearOp => []
  | Op.loadIdx fs path =>
    match fs path, fs (path ++ ".meta") with
    | some (FileData.idxFile fi), some (FileData.metaFile cks _) => fi.vecs.zip cks
    | _, _ => ps

/-- Outcome of one external generation call: a returned value, or an
exception (caught by the surrounding `except`). -/
inductive StratResult (α : Type) where
  | ok (val : α)
  | exn
  deriving DecidableEq, Repr

/-- The JSON body shapes `generate_answer` distinguishes in the raw HTTP
fallback: a list whose first element is a dict, a bare dict (each with
an optional truthy `generated_text`), or anything else. -/
inductive HttpData where
  | listDict (genText : Option String)
  | dict (genText : Option String)
  | other
  deriving DecidableEq, Repr

/-- A raw HTTP response: status code and parsed JSON body. -/
structure HttpResp where
  status : ℕ
  data : HttpData
  deriving DecidableEq, Repr

/-- The hard-coded final fallback answer. -/
def fallbackMsg : String := "Not available in uploaded documents."

/-- `txt = d.get("generated_text") or ""` followed by
`return txt.strip() or "Not available in uploaded documents."`. -/
def orFallback (txt : Option String) : String :=
  match txt with
  | none => fallbackMsg
  | some t => if t.trim = "" then fallbackMsg else t.trim

/-- `AIService.generate_answer`, abstracted over the outcomes of its
three external calls (`chat_completion`, whose message content Python
may report as `None`; `text_generation`; the raw `requests.post`).  The
Python return value is `Option String` because the chat branch can
return `None` content. -/
def generate_answer (chat : StratResult (Option String)) (tg : StratResult String)
    (http : StratResult HttpResp) : Option String :=
  match chat with
  | StratResult.ok content => content
  | StratResult.exn =>
    match tg with
    | StratResult.ok out => some out.trim
    | StratResult.exn =>
      match http with
      | StratResult.exn => some fallbackMsg
      | StratResult.ok resp =>
        if resp.status = 200 then
          match resp.data with
          | HttpData.listDict g => some (orFallback g)
          | HttpData.dict g => some (orFallback g)
          | HttpData.other => some fallbackMsg
        else some fallbackMsg

/-- Example chunk records. -/
def cA : Chunk := { doc_id := some "A", text := "alpha" }

def cB : Chunk := { doc_id := some "B", text := "beta" }

def cC : Chunk := { doc_id := some "C", text := "gamma" }

/-- A synced two-entry store used by witnesses. -/
def storeTwo : VectorStore :=
  { index := some { d := 2, vecs := [[1, 0], [0, 1]] },
    chunks := [cA, cB],
    dimension := 2 }

/-- A desynchronized store: two stored vectors, no chunk records (as
`load_index` produces when the metadata artifact is missing). -/
def storeNoChunks : VectorStore :=
  { index := some { d := 2, vecs := [[1, 0], [0, 1]] },
    chunks := [],
    dimension := 2 }

/-- A desynchronized store: one stored vector, two chunk records, so
reconstruction of vector 1 fails during a delete-rebuild. -/
def storeShortIndex : VectorStore :=
  { index := some { d := 2, vecs := [[1, 1]] },
    chunks := [cA, cB],
    dimension := 2 }

/-- The empty filesystem. -/
def emptyFS : FS := fun _ => none

/-- A filesystem holding an index artifact at `"p"` with no companion
metadata artifact. -/
def fsNoMeta : FS := fun p =>
  if p = "p" then some (FileData.idxFile { d := 2, vecs := [[1, 1]] }) else none

/-- A filesystem holding an index artifact at `"p"` and corrupt bytes at
`"p.meta"`. -/
def fsBadMeta : FS := fun p =>
  if p = "p" then some (FileData.idxFile { d := 2, vecs := [[1, 1]] })
  else if p = "p.meta" then some FileData.corrupt
  else none

/-- A filesystem holding a consistent artifact pair at `"p"`. -/
def fsGood : FS := fun p =>
  if p = "p" then some (FileData.idxFile { d := 2, vecs := [[1, 0]] })
  else if p = "p.meta" then some (FileData.metaFile [cC] 2)
  else none

theorem filterMap_eq_map_of_mem {α β : Type} {f : α → Option β} {g : α → β}
    {l : List α} (h : ∀ x ∈ l, f x = some (g x)) : l.filterMap f = l.map g := by
  induction l with
  | nil => rfl
  | cons a t ih =>
    rw [List.filterMap_cons, h a (List.mem_cons_self a t), List.map_cons,
      ih (fun x hx => h x (List.mem_cons_of_mem a hx))]

theorem filterMap_replicate_none {α β : Type} {f : α → Option β} {a : α}
    (h : f a = none) : ∀ n, (List.replicate n a).filterMap f = [] := by
  intro n
  induction n with
  | zero => rfl
  | succ m ih => rw [List.replicate_succ, List.filterMap_cons, h, ih]

theorem length_filterMap_lt_of_mem_none {α β : Type} {f : α → Option β}
    {l : List α} {a : α} (ha : a ∈ l) (h : f a = none) :
    (l.filterMap f).length < l.length := by
  induction l with
  | nil => cases ha
  | cons b t ih =>
    rcases List.mem_cons.mp ha with rfl | hmem
    · rw [List.filterMap_cons, h]
      exact Nat.lt_succ_of_le (List.length_filterMap_le f t)
    · rw [List.filterMap_cons]
      cases hfb : f b with
      | none => exact Nat.lt_succ_of_lt (ih hmem)
      | some y => simpa using Nat.succ_lt_succ (ih hmem)

theorem append_meta_ne (p : String) : p ++ ".meta" ≠ p := by
  intro h
  have hlen := congrArg String.length h
  rw [String.length_append] at hlen
  have h5 : (".meta" : String).length = 5 := rfl
  omega

theorem mem_enum_bounds {α : Type} {l : List α} {x : ℕ × α} (hx : x ∈ l.enum) :
    ∃ h : x.1 < l.length, x.2 = l.get ⟨x.1, h⟩ := by
  obtain ⟨i, a⟩ := x
  have h := List.mem_enumFrom hx
  simp only [Nat.zero_add, Nat.sub_zero] at h
  exact ⟨h.2.1, by simpa [List.get_eq_getElem] using h.2.2⟩

/-- C6: search on an empty or uninitialized structure returns an empty
sequence for every `k ≥ 0` (the function is total, so no error is
possible). -/
theorem C6_empty_search (s : VectorStore) (q : Vec) (k : ℕ)
    (h : s.get_stats.total_vectors = 0) : s.search q k = [] := by
  obtain ⟨idx, chunks, dim⟩ := s
  cases idx with
  | none => rfl
  | some fi =>
    simp only [VectorStore.get_stats] at h
    simp [VectorStore.search, h]

theorem C6_empty_search_witness :
    freshStore.get_stats.total_vectors = 0 ∧ freshStore.search [0, 0] 5 = [] :=
  ⟨rfl, C6_empty_search freshStore [0, 0] 5 rfl⟩

/-- C7: when `doc_id` matches no stored chunk record, `remove_document`
returns with the store completely unchanged (no field modified, no
rebuild of the vector structure). -/
theorem C7_remove_noop (s : VectorStore) (d : String)
    (h : ∀ c ∈ s.chunks, getDocId c ≠ some d) : s.remove_document d = s := by
  obtain ⟨idx, chunks, dim⟩ := s
  cases idx with
  | none => rfl
  | some fi =>
    simp only at h
    by_cases hemp : chunks.isEmpty
    · simp [VectorStore.remove_document, hemp]
    · have hall : keepFilter d chunks = chunks.enum := by
        unfold keepFilter
        apply List.filter_eq_self.mpr
        intro a ha
        obtain ⟨hlt, heq⟩ := mem_enum_bounds ha
        have hmem : a.2 ∈ chunks := heq ▸ List.get_mem chunks a.1 hlt
        simpa using h a.2 hmem
      simp [VectorStore.remove_document, hemp, hall, List.enum_length]

theorem C7_remove_noop_witness :
    (∀ c ∈ storeTwo.chunks, getDocId c ≠ some "Z") ∧
      storeTwo.remove_document "Z" = storeTwo :=
  ⟨by decide, C7_remove_noop storeTwo "Z" (by decide)⟩

/-- C8: `clear` is idempotent, preserves the previously-fixed dimension,
and re-initializes the structure to that dimension rather than leaving
it unset. -/
theorem C8_clear_idem (s : VectorStore) :
    s.clear.clear = s.clear ∧ s.clear.dimension = s.dimension ∧
      s.clear.index = some { d := s.dimension, vecs := [] } :=
  ⟨rfl, rfl, rfl⟩

/-- C3 counterexample: with an index artifact at `"p"` and corrupt bytes
at `"p.meta"`, `load_index` mutates the store (the index field is
replaced before the metadata read raises); and with the metadata
artifact simply missing, it returns `True` (success), not a failure
indication.  Both contradict "no-op and boolean failure if either
artifact is missing, corrupt, or unreadable". -/
theorem C3_cex :
    (freshStore.load_index fsBadMeta "p").1 ≠ freshStore ∧
      (freshStore.load_index fsNoMeta "p").2 = some true := by
  decide

/-- C3 amended: `load_index` never raises (it is a total function); if
the index artifact is missing it is a no-op returning `None`; if the
index artifact is unreadable it is a no-op returning `False`; but once
the index artifact is readable the index field is replaced even when the
metadata artifact is missing (returning `True` with the old chunks) or
unreadable (returning `False`); chunks and dimension are replaced only
on full success. -/
theorem C3_load_cases (s : VectorStore) (fs : FS) (path : String) :
    (fs path = none → s.load_index fs path = (s, none)) ∧
    (∀ fd, fs path = some fd → (∀ fi, fd ≠ FileData.idxFile fi) →
      s.load_index fs path = (s, some false)) ∧
    (∀ fi, fs path = some (FileData.idxFile fi) → fs (path ++ ".meta") = none →
      s.load_index fs path = ({ s with index := some fi }, some true)) ∧
    (∀ fi fd, fs path = some (FileData.idxFile fi) →
      fs (path ++ ".meta") = some fd →
      (∀ cks dim, fd ≠ FileData.metaFile cks dim) →
      s.load_index fs path = ({ s with index := some fi }, some false)) ∧
    (∀ fi cks dim, fs path = some (FileData.idxFile fi) →
      fs (path ++ ".meta") = some (FileData.metaFile cks dim) →
      s.load_index fs path
        = ({ index := some fi, chunks := cks, dimension := dim }, some true)) := by
  refine ⟨?_, ?_, ?_, ?_, ?_⟩
  · intro h
    simp [VectorStore.load_index, h]
  · intro fd h hne
    cases fd with
    | idxFile fi => exact absurd rfl (hne fi)
    | metaFile cks dim => simp [VectorStore.load_index, h]
    | corrupt => simp [VectorStore.load_index, h]
  · intro fi h hm
    simp [VectorStore.load_index, h, hm]
  · intro fi fd h hm hne
    cases fd with
    | idxFile fi2 => simp [VectorStore.load_index, h, hm]
    | metaFile cks dim => exact absurd rfl (hne cks dim)
    | corrupt => simp [VectorStore.load_index, h, hm]
  · intro fi cks dim h hm
    simp [VectorStore.load_index, h, hm]

theorem C3_load_cases_witness :
    freshStore.load_index emptyFS "p" = (freshStore, none) ∧
      freshStore.load_index fsGood "p"
        = ({ index := some { d := 2, vecs := [[1, 0]] },
             chunks := [cC], dimension := 2 }, some true) :=
  ⟨(C3_load_cases freshStore emptyFS "p").1 rfl,
   (C3_load_cases freshStore fsGood "p").2.2.2.2 _ [cC] 2 rfl rfl⟩

/-- C5 counterexample: on the freshly constructed store (index unset),
`save_index` writes nothing and returns `None` — not a success — and
the subsequent `load_index` into a fresh structure also returns `None`;
so "snapshot then restore succeeds" fails for this index state. -/
theorem C5_cex :
    (freshStore.save_index emptyFS "p").2 = none ∧
      (freshStore.load_index (freshStore.save_index emptyFS "p").1 "p").2 = none := by
  decide

/-- C5 amended: for every state whose index is initialized (non-`None`),
`save_index` then `load_index` into a fresh structure both return
`True`, and the restored structure has identical `get_stats` and
identical `search` results for every query vector and `k`. -/
theorem C5_roundtrip (s : VectorStore) (fs : FS) (path : String) (fi : FaissIndex)
    (h : s.index = some fi) :
    (s.save_index fs path).2 = some true ∧
    (freshStore.load_index (s.save_index fs path).1 path).2 = some true ∧
    (freshStore.load_index (s.save_index fs path).1 path).1.get_stats = s.get_stats ∧
    ∀ q k, (freshStore.load_index (s.save_index fs path).1 path).1.search q k
      = s.search q k := by
  obtain ⟨idx, chunks, dim⟩ := s
  simp only at h
  subst h
  have hmeta : ¬(path ++ ".meta" = path) := append_meta_ne path
  have hload :
      freshStore.load_index
          ((VectorStore.mk (some fi) chunks dim).save_index fs path).1 path
        = ({ index := some fi, chunks := chunks, dimension := dim }, some true) := by
    simp [VectorStore.save_index, VectorStore.load_index, hmeta]
  rw [hload]
  exact ⟨rfl, rfl, rfl, fun q k => rfl⟩

theorem C5_roundtrip_witness :
    (storeTwo.save_index emptyFS "p").2 = some true ∧
    (freshStore.load_index (storeTwo.save_index emptyFS "p").1 "p").1.get_stats
        = storeTwo.get_stats ∧
    (freshStore.load_index (storeTwo.save_index emptyFS "p").1 "p").1.search [0, 0] 1
        = storeTwo.search [0, 0] 1 :=
  ⟨(C5_roundtrip storeTwo emptyFS "p" { d := 2, vecs := [[1, 0], [0, 1]] } rfl).1,
   (C5_roundtrip storeTwo emptyFS "p" { d := 2, vecs := [[1, 0], [0, 1]] } rfl).2.2.1,
   (C5_roundtrip storeTwo emptyFS "p" { d := 2, vecs := [[1, 0], [0, 1]] } rfl).2.2.2 [0, 0] 1⟩

/-- C9 counterexample: when the structured chat call succeeds but the
provider declines to produce content (`message.content` is `None`),
`generate_answer` returns that `None` as-is — not the fixed fallback
message — contradicting "returns the fixed final fallback message ...
if every strategy fails or the provider declines to produce content". -/
theorem C9_cex :
    generate_answer (StratResult.ok none) StratResult.exn StratResult.exn
      ≠ some fallbackMsg := by
  decide

/-- C9 amended: `generate_answer` tries the structured chat call, then
plain text completion, then the raw HTTP call, each only if the previous
raised; the fixed fallback message is returned when all three raise, or
when the HTTP strategy gets a non-200 status, an unrecognized body
shape, or empty/missing generated text — but a chat or text-completion
strategy that succeeds with empty or `None` content has that content
returned as-is. -/
theorem C9_fallback_chain (chat : StratResult (Option String))
    (tg : StratResult String) (http : StratResult HttpResp) :
    (∀ c, chat = StratResult.ok c → generate_answer chat tg http = c) ∧
    (chat = StratResult.exn → ∀ t, tg = StratResult.ok t →
      generate_answer chat tg http = some t.trim) ∧
    (chat = StratResult.exn → tg = StratResult.exn → http = StratResult.exn →
      generate_answer chat tg http = some fallbackMsg) ∧
    (chat = StratResult.exn → tg = StratResult.exn →
      ∀ resp, http = StratResult.ok resp → resp.status ≠ 200 →
        generate_answer chat tg http = some fallbackMsg) ∧
    (chat = StratResult.exn → tg = StratResult.exn →
      ∀ resp, http = StratResult.ok resp → resp.status = 200 →
        resp.data = HttpData.other →
        generate_answer chat tg http = some fallbackMsg) ∧
    (chat = StratResult.exn → tg = StratResult.exn →
      ∀ resp g, http = StratResult.ok resp → resp.status = 200 →
        (resp.data = HttpData.listDict g ∨ resp.data = HttpData.dict g) →
        (g = none ∨ ∃ t, g = some t ∧ t.trim = "") →
        generate_answer chat tg http = some fallbackMsg) := by
  refine ⟨?_, ?_, ?_, ?_, ?_, ?_⟩
  · intro c hc
    subst hc
    rfl
  · intro hc t ht
    subst hc; subst ht
    rfl
  · intro hc ht hh
    subst hc; subst ht; subst hh
    rfl
  · intro hc ht resp hh hst
    subst hc; subst ht; subst hh
    simp [generate_answer, hst]
  · intro hc ht resp hh hst hd
    subst hc; subst ht; subst hh
    simp [generate_answer, hst, hd]
  · intro hc ht resp g hh hst hd hg
    subst hc; subst ht; subst hh
    have horf : orFallback g = fallbackMsg := by
      rcases hg with rfl | ⟨t, rfl, htr⟩
      · rfl
      · simp [orFallback, htr]
    rcases hd with hd | hd <;> simp [generate_answer, hst, hd, horf]

theorem C9_fallback_chain_witness :
    generate_answer (StratResult.ok (some "ans")) StratResult.exn StratResult.exn
        = some "ans" ∧
    generate_answer StratResult.exn (StratResult.ok "text") StratResult.exn
        = some "text".trim ∧
    generate_answer StratResult.exn StratResult.exn StratResult.exn
        = some fallbackMsg ∧
    generate_answer StratResult.exn StratResult.exn
        (StratResult.ok { status := 503, data := HttpData.other })
        = some fallbackMsg ∧
    generate_answer StratResult.exn StratResult.exn
        (StratResult.ok { status := 200, data := HttpData.listDict none })
        = some fallbackMsg :=
  ⟨(C9_fallback_chain (StratResult.ok (some "ans")) StratResult.exn
      StratResult.exn).1 (some "ans") rfl,
   (C9_fallback_chain StratResult.exn (StratResult.ok "text")
      StratResult.exn).2.1 rfl "text" rfl,
   (C9_fallback_chain StratResult.exn StratResult.exn
      StratResult.exn).2.2.1 rfl rfl rfl,
   (C9_fallback_chain StratResult.exn StratResult.exn
      (StratResult.ok { status := 503, data := HttpData.other })).2.2.2.1
      rfl rfl _ rfl (by decide),
   (C9_fallback_chain StratResult.exn StratResult.exn
      (StratResult.ok { status := 200, data := HttpData.listDict none })).2.2.2.2.2
      rfl rfl _ none rfl rfl (Or.inl rfl) (Or.inl rfl)⟩

/-- C4 counterexample: on a store whose index holds one vector but whose
chunk list holds two records (`cA` of document A, `cB` of document B),
removing document A keeps chunk `cB` even though reconstruction of its
vector (index 1) fails — only the vector is dropped, the chunk record is
not, contradicting "that entry (both its vector and its chunk record) is
dropped". -/
theorem C4_cex :
    cB ∈ (storeShortIndex.remove_document "A").chunks ∧
      (storeShortIndex.remove_document "A").get_stats.total_vectors = 0 := by
  decide

/-- C4 amended: during a delete-rebuild, an entry whose vector cannot be
reconstructed loses only its vector: its chunk record stays in the
rebuilt chunk list (leaving fewer stored vectors than chunk records),
the deletion itself completes (every chunk of the removed document is
gone), and nothing is logged (the handler is a bare `except: pass`). -/
theorem C4_reconstruct_drop (s : VectorStore) (fi : FaissIndex) (d : String) (i : ℕ)
    (hfi : s.index = some fi)
    (hrem : ∃ j, ∃ hj : j < s.chunks.length, getDocId (s.chunks.get ⟨j, hj⟩) = some d)
    (hi : i < s.chunks.length)
    (hkeep : getDocId (s.chunks.get ⟨i, hi⟩) ≠ some d)
    (hfail : fi.reconstruct i = none) :
    s.chunks.get ⟨i, hi⟩ ∈ (s.remove_document d).chunks ∧
    (s.remove_document d).get_stats.total_vectors
      < (s.remove_document d).chunks.length ∧
    ∀ c ∈ (s.remove_document d).chunks, getDocId c ≠ some d := by
  obtain ⟨idx, chunks, dim⟩ := s
  simp only at hfi hrem hi hkeep ⊢
  subst hfi
  obtain ⟨j, hj, hmatch⟩ := hrem
  have hne : chunks.isEmpty = false := by
    cases chunks with
    | nil => exact absurd hj (by simp)
    | cons a t => rfl
  have hjl : j < chunks.enum.length := by rw [List.enum_length]; exact hj
  have hjmem : (j, chunks.get ⟨j, hj⟩) ∈ chunks.enum := by
    have hg := List.getElem_enum chunks j hjl
    have hm : chunks.enum[j] ∈ chunks.enum := List.getElem_mem hjl
    rw [hg] at hm
    simpa [List.get_eq_getElem] using hm
  have hlt : (keepFilter d chunks).length < chunks.length := by
    unfold keepFilter
    rw [show chunks.length = chunks.enum.length from (List.enum_length).symm]
    apply List.length_filter_lt_length_iff_exists.mpr
    exact ⟨(j, chunks.get ⟨j, hj⟩), hjmem, by simpa using hmatch⟩
  have hcond : ¬ ((keepFilter d chunks).length = chunks.length) := Nat.ne_of_lt hlt
  have hil : i < chunks.enum.length := by rw [List.enum_length]; exact hi
  have himem : (i, chunks.get ⟨i, hi⟩) ∈ keepFilter d chunks := by
    unfold keepFilter
    apply List.mem_filter.mpr
    constructor
    · have hg := List.getElem_enum chunks i hil
      have hm : chunks.enum[i] ∈ chunks.enum := List.getElem_mem hil
      rw [hg] at hm
      simpa [List.get_eq_getElem] using hm
    · simpa using hkeep
  have hresult : VectorStore.remove_document ⟨some fi, chunks, dim⟩ d =
      VectorStore.mk
        (some (FaissIndex.mk dim
          ((keepFilter d chunks).filterMap (fun ic => fi.reconstruct ic.1))))
        ((keepFilter d chunks).map Prod.snd) dim := by
    simp [VectorStore.remove_document, hne, hcond]
  rw [hresult]
  refine ⟨List.mem_map_of_mem Prod.snd himem, ?_, ?_⟩
  · simp only [VectorStore.get_stats, FaissIndex.ntotal, List.length_map]
    exact length_filterMap_lt_of_mem_none himem hfail
  · intro c hc
    obtain ⟨ic, hicmem, hics⟩ := List.mem_map.mp hc
    have h2 : ic ∈ chunks.enum ∧ ¬ getDocId ic.2 = some d := by
      simpa [keepFilter, List.mem_filter] using hicmem
    rw [← hics]
    exact h2.2

theorem C4_reconstruct_drop_witness :
    cB ∈ (storeShortIndex.remove_document "A").chunks ∧
      (storeShortIndex.remove_document "A").get_stats.total_vectors
        < (storeShortIndex.remove_document "A").chunks.length := by
  have h := C4_reconstruct_drop storeShortIndex { d := 2, vecs := [[1, 1]] } "A" 1
    rfl ⟨0, by decide, by decide⟩ (by decide) (by decide) (by decide)
  exact ⟨h.1, h.2.1⟩

theorem synced_add_documents (s : VectorStore) (es : List Vec) (cs : List Chunk)
    (hs : synced s) (hlen : es.length = cs.length) :
    synced (s.add_documents es cs) := by
  obtain ⟨idx, chunks, dim⟩ := s
  cases idx with
  | none =>
    simp [VectorStore.add_documents, VectorStore.init_index, synced,
      VectorStore.get_stats, FaissIndex.add, FaissIndex.ntotal, hlen]
  | some fi =>
    simp only [synced, VectorStore.get_stats, FaissIndex.ntotal] at hs
    simp only [VectorStore.add_documents, FaissIndex.add, synced,
      VectorStore.get_stats, FaissIndex.ntotal, List.length_append]
    omega

theorem reconstruct_keepFilter (fi : FaissIndex) (chunks : List Chunk) (d : String)
    (hlen : chunks.length = fi.vecs.length) :
    (keepFilter d chunks).filterMap (fun ic => fi.reconstruct ic.1)
      = (keepFilter d chunks).map (fun ic => fi.vecs.getD ic.1 []) := by
  apply filterMap_eq_map_of_mem
  intro x hx
  have hxe : x ∈ chunks.enum := by
    have h2 : x ∈ chunks.enum ∧ ¬ getDocId x.2 = some d := by
      simpa [keepFilter, List.mem_filter] using hx
    exact h2.1
  obtain ⟨hlt, _⟩ := mem_enum_bounds hxe
  have hlt2 : x.1 < fi.vecs.length := hlen ▸ hlt
  rw [FaissIndex.reconstruct, List.getElem?_eq_getElem hlt2]
  rw [List.getD_eq_getElem _ _ hlt2]

theorem synced_remove_document (s : VectorStore) (d : String) (hs : synced s) :
    synced (s.remove_document d) := by
  obtain ⟨idx, chunks, dim⟩ := s
  cases idx with
  | none => exact hs
  | some fi =>
    simp only [synced, VectorStore.get_stats, FaissIndex.ntotal] at hs
    by_cases hemp : chunks.isEmpty
    · simpa [VectorStore.remove_document, hemp, synced, VectorStore.get_stats,
        FaissIndex.ntotal] using hs
    · by_cases hcond : (keepFilter d chunks).length = chunks.length
      · simpa [VectorStore.remove_document, hemp, hcond, synced,
          VectorStore.get_stats, FaissIndex.ntotal] using hs
      · simp [VectorStore.remove_document, hemp, hcond, synced,
          VectorStore.get_stats, FaissIndex.ntotal,
          reconstruct_keepFilter fi chunks d hs]

theorem synced_clear (s : VectorStore) : synced s.clear := by
  simp [VectorStore.clear, VectorStore.init_index, synced, VectorStore.get_stats,
    FaissIndex.ntotal]

theorem synced_load_index (s : VectorStore) (fs : FS) (path : String)
    (hs : synced s)
    (hwf : ∀ fi, fs path = some (FileData.idxFile fi) →
      ∃ cks dim, fs (path ++ ".meta") = some (FileData.metaFile cks dim) ∧
        cks.length = fi.ntotal) :
    synced (s.load_index fs path).1 := by
  cases hp : fs path with
  | none => simpa [VectorStore.load_index, hp] using hs
  | some fd =>
    cases fd with
    | idxFile fi =>
      obtain ⟨cks, dim, hm, hlen⟩ := hwf fi hp
      simp [VectorStore.load_index, hp, hm, synced, VectorStore.get_stats,
        FaissIndex.ntotal, hlen]
    | metaFile cks dim => simpa [VectorStore.load_index, hp] using hs
    | corrupt => simpa [VectorStore.load_index, hp] using hs

theorem zip_eq_enum_map (vecs : List Vec) (chunks : List Chunk)
    (h : chunks.length = vecs.length) :
    vecs.zip chunks = chunks.enum.map (fun ic => (vecs.getD ic.1 [], ic.2)) := by
  apply List.ext_getElem
  · rw [List.length_zip, List.length_map, List.enum_length, h, min_self]
  · intro n h1 h2
    have hnc : n < chunks.length := by
      rw [List.length_map, List.enum_length] at h2
      exact h2
    have hnv : n < vecs.length := h ▸ hnc
    have hne : n < chunks.enum.length := by rw [List.enum_length]; exact hnc
    rw [List.getElem_zip, List.getElem_map, List.getElem_enum]
    simp only
    rw [List.getD_eq_getElem _ _ hnv]

theorem storePairs_add (s : VectorStore) (es : List Vec) (cs : List Chunk)
    (hs : synced s) :
    storePairs (s.add_documents es cs) = storePairs s ++ es.zip cs := by
  obtain ⟨idx, chunks, dim⟩ := s
  cases idx with
  | none =>
    have hc : chunks = [] := by
      simpa [synced, VectorStore.get_stats, List.length_eq_zero] using hs
    subst hc
    simp [VectorStore.add_documents, VectorStore.init_index, storePairs,
      FaissIndex.add]
  | some fi =>
    have hlen : chunks.length = fi.vecs.length := by
      simpa [synced, VectorStore.get_stats, FaissIndex.ntotal] using hs
    simp only [VectorStore.add_documents, FaissIndex.add, storePairs]
    exact List.zip_append hlen.symm

theorem storePairs_remove (s : VectorStore) (d : String) (hs : synced s) :
    storePairs (s.remove_document d)
      = (storePairs s).filter (fun p => getDocId p.2 ≠ some d) := by
  obtain ⟨idx, chunks, dim⟩ := s
  cases idx with
  | none => rfl
  | some fi =>
    have hlen : chunks.length = fi.vecs.length := by
      simpa [synced, VectorStore.get_stats, FaissIndex.ntotal] using hs
    by_cases hemp : chunks.isEmpty
    · have hc : chunks = [] := by
        cases chunks with
        | nil => rfl
        | cons a t => exact absurd hemp (by simp)
      subst hc
      simp [VectorStore.remove_document, storePairs, List.zip_nil_right]
    · have hzip : fi.vecs.zip chunks
          = chunks.enum.map (fun ic => (fi.vecs.getD ic.1 [], ic.2)) :=
        zip_eq_enum_map fi.vecs chunks hlen
      have hfilter : (fi.vecs.zip chunks).filter
            (fun p => getDocId p.2 ≠ some d)
          = (keepFilter d chunks).map (fun ic => (fi.vecs.getD ic.1 [], ic.2)) := by
        rw [hzip, List.filter_map]
        unfold keepFilter
        apply congrArg
        apply List.filter_congr
        intro x _
        rfl
      by_cases hcond : (keepFilter d chunks).length = chunks.length
      · have hkeepeq : keepFilter d chunks = chunks.enum :=
          List.Sublist.eq_of_length
            (by unfold keepFilter; exact List.filter_sublist _)
            (by rw [hcond, List.enum_length])
        have hunch : storePairs (VectorStore.remove_document ⟨some fi, chunks, dim⟩ d)
            = fi.vecs.zip chunks := by
          simp [VectorStore.remove_document, hemp, hcond, storePairs]
        rw [hunch]
        simp only [storePairs]
        rw [hfilter, hkeepeq, ← hzip]
      · have hreb : storePairs (VectorStore.remove_document ⟨some fi, chunks, dim⟩ d)
            = ((keepFilter d chunks).map (fun ic => fi.vecs.getD ic.1 [])).zip
              ((keepFilter d chunks).map Prod.snd) := by
          simp [VectorStore.remove_document, hemp, hcond, storePairs,
            reconstruct_keepFilter fi chunks d hlen]
        rw [hreb, List.zip_map']
        simp only [storePairs]
        rw [hfilter]

theorem storePairs_clear (s : VectorStore) : storePairs s.clear = [] := rfl

theorem storePairs_load (s : VectorStore) (fs : FS) (path : String)
    (hwf : wfOp (Op.loadIdx fs path)) :
    storePairs ((s.load_index fs path).1)
      = pairApply (storePairs s) (Op.loadIdx fs path) := by
  cases hp : fs path with
  | none => simp [VectorStore.load_index, pairApply, hp]
  | some fd =>
    cases fd with
    | idxFile fi =>
      obtain ⟨cks, dim, hm, _⟩ := hwf fi hp
      simp [VectorStore.load_index, pairApply, hp, hm, storePairs]
    | metaFile cks dim => simp [VectorStore.load_index, pairApply, hp]
    | corrupt => simp [VectorStore.load_index, pairApply, hp]

theorem corr_apply (s : VectorStore) (op : Op) (hs : synced s) (hwf : wfOp op) :
    synced (s.apply op) ∧ storePairs (s.apply op) = pairApply (storePairs s) op := by
  cases op with
  | addDocs es cs =>
    exact ⟨synced_add_documents s es cs hs hwf.2, storePairs_add s es cs hs⟩
  | removeDoc d => exact ⟨synced_remove_document s d hs, storePairs_remove s d hs⟩
  | clearOp => exact ⟨synced_clear s, storePairs_clear s⟩
  | loadIdx fs path =>
    exact ⟨synced_load_index s fs path hs hwf, storePairs_load s fs path hwf⟩

theorem corr_foldl (ops : List Op) : ∀ s : VectorStore, synced s →
    (∀ op ∈ ops, wfOp op) →
    synced (ops.foldl VectorStore.apply s) ∧
    storePairs (ops.foldl VectorStore.apply s)
      = ops.foldl pairApply (storePairs s) := by
  induction ops with
  | nil => intro s hs _; exact ⟨hs, rfl⟩
  | cons op t ih =>
    intro s hs hwf
    rw [List.foldl_cons, List.foldl_cons]
    obtain ⟨h1, h2⟩ := corr_apply s op hs (hwf op (List.mem_cons_self op t))
    have h3 := ih (s.apply op) h1 (fun o ho => hwf o (List.mem_cons_of_mem op ho))
    exact ⟨h3.1, by rw [h3.2, h2]⟩

/-- C1 counterexample: the invariant is breakable by an operation in the
claim's own alphabet: `load_index` on a path holding an index artifact
(one vector) with no companion metadata artifact replaces the index but
keeps the empty chunk list, leaving one stored vector against zero chunk
records. -/
theorem C1_cex :
    synced freshStore ∧ ¬ synced (freshStore.apply (Op.loadIdx fsNoMeta "p")) := by
  decide

/-- C1 amended: starting from any state satisfying the parallel-lists
invariant, after every prefix of a sequence of operations the two
sequences have identical length AND identical index correspondence: the
store's positional (vector, chunk record) pairing — the vector at
position `i` with the chunk record at position `i` — equals the
specification-level pair sequence obtained by appending the inserted
(embedding, chunk) pairs in order, removing a document's pairs while
preserving the surviving pairs and their order, clearing, and replacing
by the loaded artifact pair; so the vector at position `i` remains the
embedding inserted with the chunk record at position `i`.  Provisos (the
cases the counterexample shows the unamended claim fails on): each
`add_documents` call gets a non-empty embedding batch of the same length
as its metadata batch, and each `load_index` call targets a path whose
readable index artifact comes with a readable, consistent metadata
artifact. -/
theorem C1_sync_invariant (s : VectorStore) (ops pre suf : List Op)
    (hs : synced s) (hsplit : ops = pre ++ suf) (hwf : ∀ op ∈ ops, wfOp op) :
    synced (pre.foldl VectorStore.apply s) ∧
    storePairs (pre.foldl VectorStore.apply s)
      = pre.foldl pairApply (storePairs s) := by
  subst hsplit
  exact corr_foldl pre s hs (fun op ho => hwf op (List.mem_append_left suf ho))

theorem C1_sync_invariant_witness :
    synced ([Op.addDocs [[1, 0], [0, 1]] [cA, cB]].foldl VectorStore.apply
      freshStore) ∧
    storePairs ([Op.addDocs [[1, 0], [0, 1]] [cA, cB]].foldl VectorStore.apply
      freshStore)
      = [Op.addDocs [[1, 0], [0, 1]] [cA, cB]].foldl pairApply
        (storePairs freshStore) := by
  apply C1_sync_invariant freshStore
    [Op.addDocs [[1, 0], [0, 1]] [cA, cB], Op.clearOp]
    [Op.addDocs [[1, 0], [0, 1]] [cA, cB]] [Op.clearOp] (by decide) rfl
  intro op hop
  rcases List.mem_cons.mp hop with rfl | hop2
  · exact ⟨by decide, rfl⟩
  · rcases List.mem_cons.mp hop2 with rfl | hop3
    · exact trivial
    · cases hop3

theorem mem_sortedPairs {fi : FaissIndex} {q : Vec} {p : ℚ × ℕ}
    (hp : p ∈ fi.sortedPairs q) :
    p = (sqDist q (fi.vecs.getD p.2 []), p.2) ∧ p.2 < fi.ntotal := by
  have hmem : p ∈ fi.distPairs q :=
    (List.perm_insertionSort pairLe (fi.distPairs q)).mem_iff.mp hp
  obtain ⟨i, hi, hpe⟩ := List.mem_map.mp hmem
  rw [List.mem_range] at hi
  subst hpe
  exact ⟨rfl, hi⟩

theorem sortedPairs_length (fi : FaissIndex) (q : Vec) :
    (fi.sortedPairs q).length = fi.ntotal := by
  rw [FaissIndex.sortedPairs, (List.perm_insertionSort pairLe _).length_eq,
    FaissIndex.distPairs, List.length_map, List.length_range]

theorem sortedPairs_sorted (fi : FaissIndex) (q : Vec) :
    List.Pairwise pairLe (fi.sortedPairs q) :=
  List.sorted_insertionSort pairLe (fi.distPairs q)

theorem sortedPairs_snd_nodup (fi : FaissIndex) (q : Vec) :
    ((fi.sortedPairs q).map Prod.snd).Nodup := by
  have hperm : ((fi.sortedPairs q).map Prod.snd).Perm ((fi.distPairs q).map Prod.snd) :=
    (List.perm_insertionSort pairLe _).map Prod.snd
  rw [hperm.nodup_iff, FaissIndex.distPairs, List.map_map]
  have hcomp : (Prod.snd ∘ fun i => (sqDist q (fi.vecs.getD i []), i)) = id := rfl
  rw [hcomp, List.map_id]
  exact List.nodup_range fi.ntotal

theorem search_eq_filterMap (s : VectorStore) (fi : FaissIndex) (q : Vec) (k : ℕ)
    (hfi : s.index = some fi) (hne : fi.ntotal ≠ 0) :
    s.search q k = ((fi.sortedPairs q).take k).filterMap (fun p =>
      if p.2 < s.chunks.length then some (s.chunks.getD p.2 default, p.1)
      else none) := by
  obtain ⟨idx, chunks, dim⟩ := s
  simp only at hfi
  subst hfi
  simp only [VectorStore.search, FaissIndex.searchPairs, if_neg hne]
  rw [List.filterMap_append, List.filterMap_map]
  have hpad : (List.replicate
      (k - ((fi.sortedPairs q).take k).length) ((0 : ℚ), (-1 : Int))).filterMap
      (fun p => if p.2 ≠ -1 ∧ p.2 < (chunks.length : Int) then
        some (chunks.getD p.2.toNat default, p.1) else none) = [] := by
    apply filterMap_replicate_none
    simp
  rw [hpad, List.append_nil]
  apply List.filterMap_congr
  intro p hp
  simp only [Function.comp_apply]
  have h1 : ((p.2 : Int) ≠ -1) := by omega
  by_cases hlt : p.2 < chunks.length
  · rw [if_pos ⟨h1, by exact_mod_cast hlt⟩, if_pos hlt, Int.toNat_natCast]
  · rw [if_neg ?_, if_neg hlt]
    intro hc
    exact hlt (by exact_mod_cast hc.2)

/-- C10: on any store with an initialized index — including states where
the number of stored vectors differs from the length of the chunk list —
`search` is total (never raises), returns at most `min k ntotal` results
(possibly fewer, since hits whose label is `-1` or out of range of the
chunk list are silently skipped), and every result it does return pairs
an in-range chunk record with the distance of the same-position stored
vector. -/
theorem C10_desync_safe (s : VectorStore) (fi : FaissIndex) (q : Vec) (k : ℕ)
    (hfi : s.index = some fi) (hq : q.length = fi.d) :
    (s.search q k).length ≤ min k fi.ntotal ∧
    ∀ r ∈ s.search q k, ∃ i, i < s.chunks.length ∧ i < fi.ntotal ∧
      r = (s.chunks.getD i default, sqDist q (fi.vecs.getD i [])) := by
  by_cases hne : fi.ntotal = 0
  · have hempty : s.search q k = [] := by
      obtain ⟨idx, chunks, dim⟩ := s
      simp only at hfi
      subst hfi
      simp [VectorStore.search, hne]
    rw [hempty]
    exact ⟨by simp, by simp⟩
  · rw [search_eq_filterMap s fi q k hfi hne]
    constructor
    · calc (((fi.sortedPairs q).take k).filterMap _).length
          ≤ ((fi.sortedPairs q).take k).length := List.length_filterMap_le _ _
        _ = min k (fi.sortedPairs q).length := List.length_take k _
        _ = min k fi.ntotal := by rw [sortedPairs_length]
    · intro r hr
      obtain ⟨p, hp, hpr⟩ := List.mem_filterMap.mp hr
      have hps : p ∈ fi.sortedPairs q := List.take_subset k _ hp
      obtain ⟨hshape, hlt⟩ := mem_sortedPairs hps
      by_cases hc : p.2 < s.chunks.length
      · rw [if_pos hc] at hpr
        refine ⟨p.2, hc, hlt, ?_⟩
        rw [← Option.some_inj.mp hpr]
        have hp1 : p.1 = sqDist q (fi.vecs.getD p.2 []) := congrArg Prod.fst hshape
        rw [hp1]
      · rw [if_neg hc] at hpr
        cases hpr

theorem C10_desync_safe_witness :
    (storeNoChunks.search [0, 0] 3).length ≤ min 3 2 ∧
    ∀ r ∈ storeNoChunks.search [0, 0] 3, ∃ i, i < storeNoChunks.chunks.length ∧
      i < (2 : ℕ) ∧ r = (storeNoChunks.chunks.getD i default,
        sqDist [0, 0] ((FaissIndex.mk 2 [[1, 0], [0, 1]]).vecs.getD i [])) :=
  C10_desync_safe storeNoChunks (FaissIndex.mk 2 [[1, 0], [0, 1]]) [0, 0] 3 rfl rfl

/-- C2: on a non-empty index paired with a chunk list of the same length
and a query of the index's dimension, `search(q, k)` returns at most
`min k ntotal` results; each result is a copy of the stored chunk record
at some position paired with the squared Euclidean distance from the
query to that position's stored vector; the witnessing positions are in
range, pairwise ordered by strictly increasing distance or by equal
distance with strictly increasing insertion index (ties broken by lower
original insertion index), and therefore the returned distances are
non-decreasing. -/
theorem C2_search_sorted (s : VectorStore) (fi : FaissIndex) (q : Vec) (k : ℕ)
    (hfi : s.index = some fi) (hne : fi.ntotal ≠ 0) (hq : q.length = fi.d)
    (hsync : s.chunks.length = fi.ntotal) :
    ∃ idxs : List ℕ,
      s.search q k = idxs.map (fun i => (s.chunks.getD i default,
        sqDist q (fi.vecs.getD i []))) ∧
      idxs.length ≤ min k fi.ntotal ∧
      (∀ i ∈ idxs, i < fi.ntotal) ∧
      List.Pairwise (fun i j =>
        sqDist q (fi.vecs.getD i []) < sqDist q (fi.vecs.getD j []) ∨
        (sqDist q (fi.vecs.getD i []) = sqDist q (fi.vecs.getD j []) ∧ i < j)) idxs ∧
      List.Pairwise (fun a b : Chunk × ℚ => a.2 ≤ b.2) (s.search q k) := by
  have hsearch := search_eq_filterMap s fi q k hfi hne
  have hkeep : ((fi.sortedPairs q).take k).filterMap (fun p =>
      if p.2 < s.chunks.length then some (s.chunks.getD p.2 default, p.1) else none)
      = ((fi.sortedPairs q).take k).map (fun p =>
        (s.chunks.getD p.2 default, sqDist q (fi.vecs.getD p.2 []))) := by
    apply filterMap_eq_map_of_mem
    intro p hp
    obtain ⟨hshape, hlt⟩ := mem_sortedPairs (List.take_subset k _ hp)
    rw [if_pos (hsync ▸ hlt)]
    have hp1 : p.1 = sqDist q (fi.vecs.getD p.2 []) := congrArg Prod.fst hshape
    rw [hp1]
  have hmain : s.search q k = ((fi.sortedPairs q).take k).map (fun p =>
      (s.chunks.getD p.2 default, sqDist q (fi.vecs.getD p.2 []))) := by
    rw [hsearch, hkeep]
  have hsortedtop : List.Pairwise pairLe ((fi.sortedPairs q).take k) :=
    List.Pairwise.sublist (List.take_sublist k _) (sortedPairs_sorted fi q)
  have hnodup : (((fi.sortedPairs q).take k).map Prod.snd).Nodup := by
    rw [List.map_take]
    exact List.Nodup.sublist (List.take_sublist k _) (sortedPairs_snd_nodup fi q)
  have hnodup2 : List.Pairwise (fun p r : ℚ × ℕ => p.2 ≠ r.2)
      ((fi.sortedPairs q).take k) := List.pairwise_map.mp hnodup
  refine ⟨((fi.sortedPairs q).take k).map Prod.snd, ?_, ?_, ?_, ?_, ?_⟩
  · rw [hmain, List.map_map]
    rfl
  · rw [List.length_map]
    apply le_of_eq
    calc ((fi.sortedPairs q).take k).length
        = min k (fi.sortedPairs q).length := List.length_take k _
      _ = min k fi.ntotal := by rw [sortedPairs_length]
  · intro i hi
    obtain ⟨p, hp, hpi⟩ := List.mem_map.mp hi
    obtain ⟨_, hlt⟩ := mem_sortedPairs (List.take_subset k _ hp)
    exact hpi ▸ hlt
  · rw [List.pairwise_map]
    refine List.Pairwise.imp_of_mem ?_ (hsortedtop.and hnodup2)
    intro p r hpmem hrmem hpr
    obtain ⟨hps, _⟩ := mem_sortedPairs (List.take_subset k _ hpmem)
    obtain ⟨hrs, _⟩ := mem_sortedPairs (List.take_subset k _ hrmem)
    have hp1 : p.1 = sqDist q (fi.vecs.getD p.2 []) := congrArg Prod.fst hps
    have hr1 : r.1 = sqDist q (fi.vecs.getD r.2 []) := congrArg Prod.fst hrs
    rcases hpr.1 with hlt | ⟨heq, hle⟩
    · exact Or.inl (hp1 ▸ hr1 ▸ hlt)
    · exact Or.inr ⟨hp1 ▸ hr1 ▸ heq, lt_of_le_of_ne hle hpr.2⟩
  · rw [hmain, List.pairwise_map]
    refine List.Pairwise.imp_of_mem ?_ hsortedtop
    intro p r hpmem hrmem hpr
    obtain ⟨hps, _⟩ := mem_sortedPairs (List.take_subset k _ hpmem)
    obtain ⟨hrs, _⟩ := mem_sortedPairs (List.take_subset k _ hrmem)
    have hp1 : p.1 = sqDist q (fi.vecs.getD p.2 []) := congrArg Prod.fst hps
    have hr1 : r.1 = sqDist q (fi.vecs.getD r.2 []) := congrArg Prod.fst hrs
    show sqDist q (fi.vecs.getD p.2 []) ≤ sqDist q (fi.vecs.getD r.2 [])
    rcases hpr with hlt | ⟨heq, _⟩
    · exact le_of_lt (hp1 ▸ hr1 ▸ hlt)
    · exact le_of_eq (hp1 ▸ hr1 ▸ heq)

theorem C2_search_sorted_witness :
    ∃ idxs : List ℕ,
      storeTwo.search [0, 0] 5 = idxs.map (fun i => (storeTwo.chunks.getD i default,
        sqDist [0, 0] ((FaissIndex.mk 2 [[1, 0], [0, 1]]).vecs.getD i []))) ∧
      idxs.length ≤ min 5 (FaissIndex.mk 2 [[1, 0], [0, 1]]).ntotal ∧
      (∀ i ∈ idxs, i < (FaissIndex.mk 2 [[1, 0], [0, 1]]).ntotal) ∧
      List.Pairwise (fun i j =>
        sqDist [0, 0] ((FaissIndex.mk 2 [[1, 0], [0, 1]]).vecs.getD i [])
          < sqDist [0, 0] ((FaissIndex.mk 2 [[1, 0], [0, 1]]).vecs.getD j []) ∨
        (sqDist [0, 0] ((FaissIndex.mk 2 [[1, 0], [0, 1]]).vecs.getD i [])
          = sqDist [0, 0] ((FaissIndex.mk 2 [[1, 0], [0, 1]]).vecs.getD j []) ∧
          i < j)) idxs ∧
      List.Pairwise (fun a b : Chunk × ℚ => a.2 ≤ b.2) (storeTwo.search [0, 0] 5) :=
  C2_search_sorted storeTwo (FaissIndex.mk 2 [[1, 0], [0, 1]]) [0, 0] 5 rfl
    (by decide) rfl rfl
